import Mathlib

/-!
Shallow embedding of `ordered_map.go` from sdn0303/ordered-map-go.

The Go `OrderedMap[K comparable, V any]` owns
  * `data  map[K]V` — hash mapping, modelled here as an association list
    accessed only through `mapGet` / `mapSet` / `mapDelete` (the observable
    behaviour of a Go map: lookup, insert-or-update, delete);
  * `order []K` — the insertion-order slice, modelled as `List K`;
  * `less  func(a, b K) bool` — the optional default comparator registered by
    `WithComparator` (`nil` modelled as `none`).
The `sync.RWMutex` field only serializes access and has no effect on the
sequential state transformation each method performs, so it is not part of
the state.  Each Go method becomes a pure function; methods that mutate the
receiver return the new state, methods that also return values return a pair.
Go's `var zero V` is modelled by `default : V` from an `Inhabited` instance.
-/

set_option linter.unusedSectionVars false
set_option linter.unnecessarySimpa false

namespace orderedmap

/-- The documented failure conditions of the fallible operations.  The Go code
returns distinct `error` values built with `errors.New` / `fmt.Errorf`; only
their identity matters to the contract, so they are modelled as an enumeration. -/
inductive OMError where
  | comparatorRequired
  | updateFnRequired
  | keyAlreadyExists
  | targetNotFound
deriving DecidableEq, Repr

variable {K V : Type} [DecidableEq K]

/-- Go map read `v, ok := m.data[key]`: the value stored at `key`, if any. -/
def mapGet : List (K × V) → K → Option V
  | [], _ => none
  | (k, v) :: rest, key => if k = key then some v else mapGet rest key

/-- Go map write `m.data[key] = value`: overwrite if present, else add. -/
def mapSet : List (K × V) → K → V → List (K × V)
  | [], key, value => [(key, value)]
  | (k, v) :: rest, key, value =>
    if k = key then (key, value) :: rest else (k, v) :: mapSet rest key value

/-- Go `delete(m.data, key)`: remove the binding for `key`. -/
def mapDelete : List (K × V) → K → List (K × V)
  | [], _ => []
  | (k, v) :: rest, key =>
    if k = key then mapDelete rest key else (k, v) :: mapDelete rest key

/-- State of `OrderedMap[K, V]` (src/ordered_map.go lines 75-80), minus the
mutex, which does not contribute to the sequential semantics. -/
structure OrderedMap (K V : Type) where
  data : List (K × V)
  order : List K
  less : Option (K → K → Bool)

/-- `NewOrderedMap(opts...)`: the options only pre-size storage
(`WithCapacity`, no observable effect on contents) and register the default
comparator (`WithComparator`, last one wins), so every constructible initial
state is empty with an arbitrary optional comparator. -/
def NewOrderedMap (less : Option (K → K → Bool)) : OrderedMap K V :=
  { data := [], order := [], less := less }

/-- `Set`: insert (appending to `order`) or update-in-place. -/
def OrderedMap.Set (m : OrderedMap K V) (key : K) (value : V) : OrderedMap K V :=
  match mapGet m.data key with
  | some _ => { m with data := mapSet m.data key value }
  | none => { m with data := mapSet m.data key value, order := m.order ++ [key] }

/-- `Upsert`: returns `(value, inserted, error)` and the new state.  The Go
`fn func(old V) V` argument is `nil`-able, hence `Option (V → V)`. -/
def OrderedMap.Upsert [Inhabited V] (m : OrderedMap K V) (key : K) (newVal : V)
    (fn : Option (V → V)) : (V × Bool × Option OMError) × OrderedMap K V :=
  match mapGet m.data key with
  | some old =>
    match fn with
    | none => ((default, false, some .updateFnRequired), m)
    | some f =>
      let updated := f old
      ((updated, false, none), { m with data := mapSet m.data key updated })
  | none =>
    ((newVal, true, none),
      { m with data := mapSet m.data key newVal, order := m.order ++ [key] })

/-- `Get`: value and presence flag. -/
def OrderedMap.Get [Inhabited V] (m : OrderedMap K V) (key : K) : V × Bool :=
  match mapGet m.data key with
  | some v => (v, true)
  | none => (default, false)

/-- `Has`. -/
def OrderedMap.Has (m : OrderedMap K V) (key : K) : Bool :=
  (mapGet m.data key).isSome

/-- `Len`: `len(m.data)`. -/
def OrderedMap.Len (m : OrderedMap K V) : Nat :=
  m.data.length

/-- `indexOf`: first index of `key` in `order`; Go's `-1` is `none`. -/
def OrderedMap.indexOf (order : List K) (key : K) : Option Nat :=
  match order with
  | [] => none
  | k :: rest => if k = key then some 0 else (OrderedMap.indexOf rest key).map (· + 1)

/-- `removeFromOrder`: delete the first occurrence of `key` from `order`
(`append(m.order[:i], m.order[i+1:]...)`). -/
def OrderedMap.removeFromOrder (order : List K) (key : K) : List K :=
  match order with
  | [] => []
  | k :: rest => if k = key then rest else k :: OrderedMap.removeFromOrder rest key

/-- `Delete`: returns `(value, found)` and the new state. -/
def OrderedMap.Delete [Inhabited V] (m : OrderedMap K V) (key : K) :
    (V × Bool) × OrderedMap K V :=
  match mapGet m.data key with
  | none => ((default, false), m)
  | some val =>
    ((val, true),
      { m with data := mapDelete m.data key,
               order := OrderedMap.removeFromOrder m.order key })

/-- `Clear`: empties both structures (capacity retention is unobservable). -/
def OrderedMap.Clear (m : OrderedMap K V) : OrderedMap K V :=
  { m with data := [], order := [] }

/-- `Pairs`: snapshot of key/value pairs in insertion order.  Go's
`m.data[k]` read yields the zero value when absent, hence `getD default`
(under the invariant every `k ∈ order` is present). -/
def OrderedMap.Pairs [Inhabited V] (m : OrderedMap K V) : List (K × V) :=
  m.order.map fun k => (k, (mapGet m.data k).getD default)

/-- `Keys`: snapshot of keys in insertion order. -/
def OrderedMap.Keys (m : OrderedMap K V) : List K :=
  m.order

/-- `Values`: snapshot of values in insertion order. -/
def OrderedMap.Values [Inhabited V] (m : OrderedMap K V) : List V :=
  m.order.map fun k => (mapGet m.data k).getD default

/-- Model of Go `sort.SliceStable(pairs, func(i, j) { less(pairs[i].Key,
pairs[j].Key) })`: a stable sort placing `p` before `q` when
`less p.Key q.Key`.  Any stable sort yields the same output, so the verified
stable `List.insertionSort` with the reflexive relation `¬ less q.Key p.Key`
is a faithful model. -/
def sliceStable (less : K → K → Bool) (l : List (K × V)) : List (K × V) :=
  List.insertionSort (fun p q => less q.1 p.1 = false) l

/-- `SortedPairs`: comparator resolution (argument, else registered default,
else `ErrComparatorRequired`), snapshot, stable sort.  The receiver state is
returned unchanged: the Go body never writes a field. -/
def OrderedMap.SortedPairs [Inhabited V] (m : OrderedMap K V)
    (less : Option (K → K → Bool)) :
    Except OMError (List (K × V)) × OrderedMap K V :=
  match (match less with | some l => some l | none => m.less) with
  | none => (.error .comparatorRequired, m)
  | some l => (.ok (sliceStable l m.Pairs), m)

/-- Insertion of `key` at index `idx` of `order`.  The Go sequence
`order = append(order, key); copy(order[idx+1:], order[idx:]); order[idx] = key`
extends the slice by one, shifts `order[idx:]` one slot right and writes
`key` at `idx`, which is exactly `take idx ++ key :: drop idx` for
`idx ≤ len(order)`. -/
def insertAt (order : List K) (idx : Nat) (key : K) : List K :=
  order.take idx ++ key :: order.drop idx

/-- `InsertBefore`: duplicate-key check, then target lookup, then insertion
at the target's index. -/
def OrderedMap.InsertBefore (m : OrderedMap K V) (target key : K) (value : V) :
    Option OMError × OrderedMap K V :=
  if (mapGet m.data key).isSome then (some .keyAlreadyExists, m)
  else
    match OrderedMap.indexOf m.order target with
    | none => (some .targetNotFound, m)
    | some idx =>
      (none, { m with data := mapSet m.data key value,
                      order := insertAt m.order idx key })

/-- `InsertAfter`: as `InsertBefore` with `insertPos := idx + 1`. -/
def OrderedMap.InsertAfter (m : OrderedMap K V) (target key : K) (value : V) :
    Option OMError × OrderedMap K V :=
  if (mapGet m.data key).isSome then (some .keyAlreadyExists, m)
  else
    match OrderedMap.indexOf m.order target with
    | none => (some .targetNotFound, m)
    | some idx =>
      (none, { m with data := mapSet m.data key value,
                      order := insertAt m.order (idx + 1) key })

/-- States reachable from a newly constructed map by the mutating
operations (`Set`, `Upsert`, `Delete`, `Clear`, `InsertBefore`,
`InsertAfter`). -/
inductive Reachable [Inhabited V] : OrderedMap K V → Prop where
  | new (less : Option (K → K → Bool)) : Reachable (NewOrderedMap less)
  | set {m} (key : K) (value : V) : Reachable m → Reachable (m.Set key value)
  | upsert {m} (key : K) (newVal : V) (fn : Option (V → V)) :
      Reachable m → Reachable (m.Upsert key newVal fn).2
  | delete {m} (key : K) : Reachable m → Reachable (m.Delete key).2
  | clear {m} : Reachable m → Reachable m.Clear
  | insertBefore {m} (target key : K) (value : V) :
      Reachable m → Reachable (m.InsertBefore target key value).2
  | insertAfter {m} (target key : K) (value : V) :
      Reachable m → Reachable (m.InsertAfter target key value).2

/-- The bijection/no-duplicates invariant: `order` lists exactly the keys
present in `data`, each once. -/
def WF (m : OrderedMap K V) : Prop :=
  (∀ k, k ∈ m.order ↔ (mapGet m.data k).isSome) ∧ m.order.Nodup

/-- The comparator `len(a) < len(b)` of the spec's Scenario C. -/
def lenLess (a b : String) : Bool :=
  decide (a.length < b.length)

/-- Scenario A state: `set("b",2)`, `set("a",1)`, `set("a",3)`. -/
def scenarioA : OrderedMap String Nat :=
  (((NewOrderedMap none).Set "b" 2).Set "a" 1).Set "a" 3

/-- Scenario B state: `set("a",1)`, `set("c",3)`, `insertBefore("c","b",2)`,
`insertAfter("c","d",4)`. -/
def scenarioB : OrderedMap String Nat :=
  (((((NewOrderedMap none).Set "a" 1).Set "c" 3).InsertBefore "c" "b" 2).2.InsertAfter
    "c" "d" 4).2

/-- Scenario C state: default comparator `len(a) < len(b)`, then `set("aa",1)`,
`set("bb",2)`, `set("c",3)`. -/
def scenarioC : OrderedMap String Nat :=
  (((NewOrderedMap (some lenLess)).Set "aa" 1).Set "bb" 2).Set "c" 3

/-- Scenario E state: `set("a",1)`, `set("b",2)`, `set("c",3)`. -/
def scenarioE : OrderedMap String Nat :=
  (((NewOrderedMap none).Set "a" 1).Set "b" 2).Set "c" 3

theorem mapGet_mapSet (d : List (K × V)) (k : K) (v : V) (x : K) :
    mapGet (mapSet d k v) x = if k = x then some v else mapGet d x := by
  induction d with
  | nil => simp [mapGet, mapSet]
  | cons a rest ih =>
    obtain ⟨ak, av⟩ := a
    by_cases hak : ak = k
    · subst hak
      simp only [mapSet, if_pos rfl, mapGet]
      by_cases hx : ak = x <;> simp [mapGet, hx]
    · simp only [mapSet, if_neg hak, mapGet, ih]
      by_cases hx : ak = x
      · subst hx
        have hkx : ¬ k = ak := fun h => hak h.symm
        simp [hkx]
      · simp [hx]

theorem mapGet_mapDelete (d : List (K × V)) (k : K) (x : K) :
    mapGet (mapDelete d k) x = if k = x then none else mapGet d x := by
  induction d with
  | nil => simp [mapGet, mapDelete]
  | cons a rest ih =>
    obtain ⟨ak, av⟩ := a
    by_cases hak : ak = k
    · subst hak
      simp only [mapDelete, if_true]
      rw [ih]
      by_cases hx : ak = x <;> simp [mapGet, hx]
    · simp only [mapDelete, if_neg hak, mapGet, ih]
      by_cases hx : ak = x
      · subst hx
        have hkx : ¬ k = ak := fun h => hak h.symm
        simp [hkx]
      · simp [hx]

theorem indexOf_eq_none (order : List K) (key : K) :
    OrderedMap.indexOf order key = none ↔ key ∉ order := by
  induction order with
  | nil => simp [OrderedMap.indexOf]
  | cons k rest ih =>
    by_cases h : k = key
    · simp [OrderedMap.indexOf, h]
    · have hne : ¬ key = k := fun hx => h hx.symm
      simp [OrderedMap.indexOf, h, hne, Option.map_eq_none', ih]

theorem indexOf_getElem (order : List K) (key : K) (i : Nat)
    (h : OrderedMap.indexOf order key = some i) : order[i]? = some key := by
  induction order generalizing i with
  | nil => simp [OrderedMap.indexOf] at h
  | cons k rest ih =>
    by_cases hk : k = key
    · simp [OrderedMap.indexOf, hk] at h
      subst hk
      simp [← h]
    · simp [OrderedMap.indexOf, hk] at h
      obtain ⟨j, hj, rfl⟩ := h
      simpa using ih j hj

theorem indexOf_lt_length (order : List K) (key : K) (i : Nat)
    (h : OrderedMap.indexOf order key = some i) : i < order.length := by
  have := indexOf_getElem order key i h
  rcases List.getElem?_eq_some.1 this with ⟨hlt, _⟩
  exact hlt

theorem insertAt_zero (order : List K) (key : K) :
    insertAt order 0 key = key :: order := by
  simp [insertAt]

theorem insertAt_cons_succ (k : K) (rest : List K) (j : Nat) (key : K) :
    insertAt (k :: rest) (j + 1) key = k :: insertAt rest j key := by
  simp [insertAt]

theorem insertAt_getElem_self (order : List K) (idx : Nat) (key : K)
    (h : idx ≤ order.length) : (insertAt order idx key)[idx]? = some key := by
  induction order generalizing idx with
  | nil =>
    have h0 : idx = 0 := by simpa using h
    subst h0
    simp [insertAt]
  | cons k rest ih =>
    cases idx with
    | zero => simp [insertAt_zero]
    | succ j =>
      rw [insertAt_cons_succ]
      simpa using ih j (by simpa using h)

theorem insertAt_getElem_succ (order : List K) (idx : Nat) (key : K) :
    (insertAt order idx key)[idx + 1]? = order[idx]? := by
  induction order generalizing idx with
  | nil =>
    cases idx <;> simp [insertAt]
  | cons k rest ih =>
    cases idx with
    | zero => simp [insertAt_zero]
    | succ j =>
      rw [insertAt_cons_succ]
      simpa using ih j

theorem insertAt_getElem_lt (order : List K) (idx j : Nat) (key : K)
    (hj : j < idx) (h : idx ≤ order.length) :
    (insertAt order idx key)[j]? = order[j]? := by
  induction order generalizing idx j with
  | nil =>
    have : idx = 0 := by simpa using h
    omega
  | cons k rest ih =>
    cases idx with
    | zero => omega
    | succ i =>
      rw [insertAt_cons_succ]
      cases j with
      | zero => simp
      | succ jj =>
        have hi : i ≤ rest.length := by simpa using h
        simpa using ih i jj (by omega) hi

theorem insertAt_perm (order : List K) (idx : Nat) (key : K) :
    List.Perm (insertAt order idx key) (key :: order) := by
  have h := @List.perm_middle K key (order.take idx) (order.drop idx)
  rw [List.take_append_drop] at h
  exact h

theorem mem_insertAt (order : List K) (idx : Nat) (key x : K) :
    x ∈ insertAt order idx key ↔ x = key ∨ x ∈ order := by
  rw [(insertAt_perm order idx key).mem_iff]
  simp

theorem removeFromOrder_sublist (order : List K) (key : K) :
    List.Sublist (OrderedMap.removeFromOrder order key) order := by
  induction order with
  | nil => simp [OrderedMap.removeFromOrder]
  | cons k rest ih =>
    by_cases h : k = key
    · simpa [OrderedMap.removeFromOrder, h] using List.sublist_cons_self k rest
    · simpa [OrderedMap.removeFromOrder, h] using ih.cons₂ k

theorem removeFromOrder_eq_take_drop (order : List K) (key : K) (i : Nat)
    (h : OrderedMap.indexOf order key = some i) :
    OrderedMap.removeFromOrder order key = order.take i ++ order.drop (i + 1) := by
  induction order generalizing i with
  | nil => simp [OrderedMap.indexOf] at h
  | cons k rest ih =>
    by_cases hk : k = key
    · simp [OrderedMap.indexOf, hk] at h
      subst h
      simp [OrderedMap.removeFromOrder, hk]
    · simp [OrderedMap.indexOf, hk] at h
      obtain ⟨j, hj, rfl⟩ := h
      simp [OrderedMap.removeFromOrder, hk, ih j hj]

theorem mem_removeFromOrder (order : List K) (key x : K) (hnd : order.Nodup) :
    x ∈ OrderedMap.removeFromOrder order key ↔ x ∈ order ∧ x ≠ key := by
  induction order with
  | nil => simp [OrderedMap.removeFromOrder]
  | cons k rest ih =>
    rw [List.nodup_cons] at hnd
    by_cases hk : k = key
    · subst hk
      simp only [OrderedMap.removeFromOrder, if_pos rfl, List.mem_cons]
      constructor
      · intro hx
        exact ⟨Or.inr hx, fun hxk => hnd.1 (hxk ▸ hx)⟩
      · rintro ⟨hx | hx, hne⟩
        · exact absurd hx hne
        · exact hx
    · simp only [OrderedMap.removeFromOrder, if_neg hk, List.mem_cons, ih hnd.2]
      constructor
      · rintro (rfl | ⟨hx, hne⟩)
        · exact ⟨Or.inl rfl, fun h => hk h⟩
        · exact ⟨Or.inr hx, hne⟩
      · rintro ⟨hx | hx, hne⟩
        · exact Or.inl hx
        · exact Or.inr ⟨hx, hne⟩

theorem wf_new [Inhabited V] (less : Option (K → K → Bool)) :
    WF (NewOrderedMap (K := K) (V := V) less) := by
  constructor
  · intro k
    simp [NewOrderedMap, mapGet]
  · simp [NewOrderedMap]

theorem wf_set {m : OrderedMap K V} (h : WF m) (key : K) (value : V) :
    WF (m.Set key value) := by
  obtain ⟨hmem, hnd⟩ := h
  cases hg : mapGet m.data key with
  | some old =>
    constructor
    · intro k
      simp only [OrderedMap.Set, hg]
      rw [mapGet_mapSet]
      by_cases hk : key = k
      · subst hk
        simp [hmem key, hg]
      · simp [hk, hmem k]
    · simpa only [OrderedMap.Set, hg] using hnd
  | none =>
    have hkey : key ∉ m.order := by
      rw [hmem key, hg]
      simp
    constructor
    · intro k
      simp only [OrderedMap.Set, hg]
      rw [mapGet_mapSet]
      by_cases hk : key = k
      · subst hk
        simp
      · have hk2 : ¬ k = key := fun hx => hk hx.symm
        simp [hk, hk2, hmem k]
    · simp only [OrderedMap.Set, hg]
      simp [List.nodup_append, hnd, hkey]

theorem wf_upsert [Inhabited V] {m : OrderedMap K V} (h : WF m) (key : K)
    (newVal : V) (fn : Option (V → V)) : WF (m.Upsert key newVal fn).2 := by
  obtain ⟨hmem, hnd⟩ := h
  cases hg : mapGet m.data key with
  | some old =>
    cases fn with
    | none =>
      simp only [OrderedMap.Upsert, hg]
      exact ⟨hmem, hnd⟩
    | some f =>
      constructor
      · intro k
        simp only [OrderedMap.Upsert, hg]
        rw [mapGet_mapSet]
        by_cases hk : key = k
        · subst hk
          simp [hmem key, hg]
        · simp [hk, hmem k]
      · simpa only [OrderedMap.Upsert, hg] using hnd
  | none =>
    have hkey : key ∉ m.order := by
      rw [hmem key, hg]
      simp
    constructor
    · intro k
      simp only [OrderedMap.Upsert, hg]
      rw [mapGet_mapSet]
      by_cases hk : key = k
      · subst hk
        simp
      · have hk2 : ¬ k = key := fun hx => hk hx.symm
        simp [hk, hk2, hmem k]
    · simp only [OrderedMap.Upsert, hg]
      simp [List.nodup_append, hnd, hkey]

theorem wf_delete [Inhabited V] {m : OrderedMap K V} (h : WF m) (key : K) :
    WF (m.Delete key).2 := by
  obtain ⟨hmem, hnd⟩ := h
  cases hg : mapGet m.data key with
  | none =>
    simp only [OrderedMap.Delete, hg]
    exact ⟨hmem, hnd⟩
  | some val =>
    constructor
    · intro k
      simp only [OrderedMap.Delete, hg]
      rw [mapGet_mapDelete, mem_removeFromOrder _ _ _ hnd]
      by_cases hk : key = k
      · subst hk
        simp
      · have hk2 : ¬ k = key := fun hx => hk hx.symm
        simp [hk, hk2, hmem k]
    · simp only [OrderedMap.Delete, hg]
      exact (removeFromOrder_sublist m.order key).nodup hnd

theorem wf_clear {m : OrderedMap K V} (h : WF m) : WF m.Clear := by
  constructor
  · intro k
    simp [OrderedMap.Clear, mapGet]
  · simp [OrderedMap.Clear]

theorem wf_insert_shift {m : OrderedMap K V} (hmem : ∀ k, k ∈ m.order ↔ (mapGet m.data k).isSome)
    (hnd : m.order.Nodup) (key : K) (value : V) (pos : Nat)
    (hg : mapGet m.data key = none) :
    WF { m with data := mapSet m.data key value, order := insertAt m.order pos key } := by
  have hkey : key ∉ m.order := by
    rw [hmem key, hg]
    simp
  constructor
  · intro k
    simp only
    rw [mapGet_mapSet, mem_insertAt]
    by_cases hk : key = k
    · subst hk
      simp
    · have hk2 : ¬ k = key := fun hx => hk hx.symm
      simp [hk, hk2, hmem k]
  · simp only
    rw [(insertAt_perm m.order pos key).nodup_iff]
    simp [hnd, hkey]

theorem wf_insertBefore {m : OrderedMap K V} (h : WF m) (target key : K) (value : V) :
    WF (m.InsertBefore target key value).2 := by
  obtain ⟨hmem, hnd⟩ := h
  by_cases hdup : (mapGet m.data key).isSome
  · simp only [OrderedMap.InsertBefore, if_pos hdup]
    exact ⟨hmem, hnd⟩
  · have hg : mapGet m.data key = none := Option.not_isSome_iff_eq_none.1 hdup
    cases hidx : OrderedMap.indexOf m.order target with
    | none =>
      simp only [OrderedMap.InsertBefore, if_neg hdup, hidx]
      exact ⟨hmem, hnd⟩
    | some idx =>
      simp only [OrderedMap.InsertBefore, if_neg hdup, hidx]
      exact wf_insert_shift hmem hnd key value idx hg

theorem wf_insertAfter {m : OrderedMap K V} (h : WF m) (target key : K) (value : V) :
    WF (m.InsertAfter target key value).2 := by
  obtain ⟨hmem, hnd⟩ := h
  by_cases hdup : (mapGet m.data key).isSome
  · simp only [OrderedMap.InsertAfter, if_pos hdup]
    exact ⟨hmem, hnd⟩
  · have hg : mapGet m.data key = none := Option.not_isSome_iff_eq_none.1 hdup
    cases hidx : OrderedMap.indexOf m.order target with
    | none =>
      simp only [OrderedMap.InsertAfter, if_neg hdup, hidx]
      exact ⟨hmem, hnd⟩
    | some idx =>
      simp only [OrderedMap.InsertAfter, if_neg hdup, hidx]
      exact wf_insert_shift hmem hnd key value (idx + 1) hg

/-- Every reachable state satisfies the bijection/no-duplicates invariant. -/
theorem reachable_wf [Inhabited V] {m : OrderedMap K V} (h : Reachable m) : WF m := by
  induction h with
  | new less => exact wf_new less
  | set key value _ ih => exact wf_set ih key value
  | upsert key newVal fn _ ih => exact wf_upsert ih key newVal fn
  | delete key _ ih => exact wf_delete ih key
  | clear _ ih => exact wf_clear ih
  | insertBefore target key value _ ih => exact wf_insertBefore ih target key value
  | insertAfter target key value _ ih => exact wf_insertAfter ih target key value

/-- C1: after any sequence of `Set`, `Upsert`, `Delete`, `Clear`,
`InsertBefore`, `InsertAfter` starting from a newly constructed map, the keys
of `order` are exactly the keys present in `data`, and `order` has no
duplicates. -/
theorem bijection_invariant [Inhabited V] {m : OrderedMap K V} (h : Reachable m) :
    (∀ k, k ∈ m.order ↔ (mapGet m.data k).isSome) ∧ m.order.Nodup :=
  reachable_wf h

theorem bijection_invariant_witness :
    ("b" ∈ ((((NewOrderedMap (V := Nat) none).Set "a" 1).Set "b" 2).Delete "a").2.order ↔
      (mapGet ((((NewOrderedMap (V := Nat) none).Set "a" 1).Set "b" 2).Delete
        "a").2.data "b").isSome) ∧
    ((((NewOrderedMap (V := Nat) none).Set "a" 1).Set "b" 2).Delete "a").2.order.Nodup := by
  have h := bijection_invariant
    (Reachable.delete "a" (Reachable.set "b" 2 (Reachable.set "a" 1 (Reachable.new none))))
  exact ⟨h.1 "b", h.2⟩

/-- C2: `Set` on an existing key (and `Upsert` with an update function on an
existing key) replaces only that key's stored value and leaves the order
sequence completely unchanged; Scenario A: `set("b",2)`, `set("a",1)`,
`set("a",3)` gives `pairs() = [("b",2),("a",3)]`. -/
theorem update_preserves_order [Inhabited V] (m : OrderedMap K V) (key : K)
    (value old : V) (f : V → V) (h : mapGet m.data key = some old) :
    ((m.Set key value).order = m.order ∧
      mapGet (m.Set key value).data key = some value ∧
      (∀ x, x ≠ key → mapGet (m.Set key value).data x = mapGet m.data x)) ∧
    ((m.Upsert key value (some f)).2.order = m.order ∧
      mapGet (m.Upsert key value (some f)).2.data key = some (f old) ∧
      (∀ x, x ≠ key → mapGet (m.Upsert key value (some f)).2.data x = mapGet m.data x)) ∧
    scenarioA.Pairs = [("b", 2), ("a", 3)] := by
  have hset : m.Set key value = { m with data := mapSet m.data key value } := by
    simp [OrderedMap.Set, h]
  have hup : m.Upsert key value (some f) =
      ((f old, false, none), { m with data := mapSet m.data key (f old) }) := by
    simp [OrderedMap.Upsert, h]
  refine ⟨⟨?_, ?_, ?_⟩, ⟨?_, ?_, ?_⟩, ?_⟩
  · rw [hset]
  · rw [hset]
    simp [mapGet_mapSet]
  · intro x hx
    have hkx : ¬ key = x := fun hh => hx hh.symm
    rw [hset]
    simp [mapGet_mapSet, hkx]
  · rw [hup]
  · rw [hup]
    simp [mapGet_mapSet]
  · intro x hx
    have hkx : ¬ key = x := fun hh => hx hh.symm
    rw [hup]
    simp [mapGet_mapSet, hkx]
  · decide

theorem update_preserves_order_witness :
    (scenarioA.Set "a" 7).order = scenarioA.order ∧
    scenarioA.Pairs = [("b", 2), ("a", 3)] := by
  have h := update_preserves_order scenarioA "a" 7 3 id (by decide)
  exact ⟨h.1.1, h.2.2⟩

/-- C6: `SortedPairs` uses the per-call comparator when supplied, otherwise
the comparator registered at construction, and errors with
`ErrComparatorRequired` when both are absent; Scenario D: an empty map with
no registered comparator yields the error. -/
theorem comparator_resolution [Inhabited V] (m : OrderedMap K V) (l : K → K → Bool) :
    (m.SortedPairs (some l)).1 = .ok (sliceStable l m.Pairs) ∧
    (m.less = some l → (m.SortedPairs none).1 = .ok (sliceStable l m.Pairs)) ∧
    (m.less = none → (m.SortedPairs none).1 = .error .comparatorRequired) ∧
    ((NewOrderedMap (K := String) (V := Nat) none).SortedPairs none).1 =
      .error .comparatorRequired := by
  refine ⟨rfl, ?_, ?_, rfl⟩
  · intro h
    simp [OrderedMap.SortedPairs, h]
  · intro h
    simp [OrderedMap.SortedPairs, h]

theorem comparator_resolution_witness :
    (scenarioC.SortedPairs none).1 = .ok (sliceStable lenLess scenarioC.Pairs) ∧
    (scenarioA.SortedPairs none).1 = .error .comparatorRequired := by
  refine ⟨(comparator_resolution scenarioC lenLess).2.1 rfl, ?_⟩
  exact (comparator_resolution scenarioA lenLess).2.2.1 rfl

/-- C7: `Upsert` on an absent key stores the new value, appends the key, and
reports `inserted = true` independently of the update function; on a present
key with an update function it stores the function of the old value with
`inserted = false`; on a present key without an update function it fails with
the update-function-required error and changes nothing. -/
theorem upsert_spec [Inhabited V] (m : OrderedMap K V) (key : K) (newVal : V)
    (f : V → V) (old : V) :
    (mapGet m.data key = none →
      ∀ fn, m.Upsert key newVal fn =
        ((newVal, true, none),
          { m with data := mapSet m.data key newVal, order := m.order ++ [key] })) ∧
    (mapGet m.data key = some old →
      m.Upsert key newVal (some f) =
        ((f old, false, none), { m with data := mapSet m.data key (f old) })) ∧
    (mapGet m.data key = some old →
      m.Upsert key newVal none = ((default, false, some .updateFnRequired), m)) := by
  refine ⟨?_, ?_, ?_⟩
  · intro h fn
    cases fn <;> simp [OrderedMap.Upsert, h]
  · intro h
    simp [OrderedMap.Upsert, h]
  · intro h
    simp [OrderedMap.Upsert, h]

theorem upsert_spec_witness :
    ((NewOrderedMap (V := Nat) none).Upsert "a" 5 none =
      ((5, true, none),
        { NewOrderedMap (V := Nat) none with
            data := mapSet [] "a" 5, order := [] ++ ["a"] })) ∧
    (scenarioA.Upsert "a" 9 (some (fun v => v + 1)) =
      (((fun v : Nat => v + 1) 3, false, none),
        { scenarioA with data := mapSet scenarioA.data "a" ((fun v : Nat => v + 1) 3) })) ∧
    (scenarioA.Upsert "a" 9 none = ((default, false, some .updateFnRequired), scenarioA)) := by
  refine ⟨?_, ?_, ?_⟩
  · exact (upsert_spec (NewOrderedMap none) "a" 5 id 0).1 (by decide) none
  · exact (upsert_spec scenarioA "a" 9 (fun v => v + 1) 3).2.1 (by decide)
  · exact (upsert_spec scenarioA "a" 9 (fun v => v + 1) 3).2.2 (by decide)

/-- C10: when the new key is already present, `InsertBefore` and `InsertAfter`
fail with the duplicate-key error even if the target is absent (the duplicate
check precedes the target lookup), and the target-not-found error is only
ever returned when the new key is absent. -/
theorem insert_duplicate_checked_first (m : OrderedMap K V) (target key : K) (value : V) :
    ((mapGet m.data key).isSome →
      (m.InsertBefore target key value).1 = some .keyAlreadyExists ∧
      (m.InsertAfter target key value).1 = some .keyAlreadyExists) ∧
    ((m.InsertBefore target key value).1 = some .targetNotFound →
      mapGet m.data key = none) ∧
    ((m.InsertAfter target key value).1 = some .targetNotFound →
      mapGet m.data key = none) := by
  refine ⟨?_, ?_, ?_⟩
  · intro h
    constructor <;> simp [OrderedMap.InsertBefore, OrderedMap.InsertAfter, h]
  · intro h
    by_cases hdup : (mapGet m.data key).isSome
    · simp [OrderedMap.InsertBefore, hdup] at h
    · exact Option.not_isSome_iff_eq_none.1 hdup
  · intro h
    by_cases hdup : (mapGet m.data key).isSome
    · simp [OrderedMap.InsertAfter, hdup] at h
    · exact Option.not_isSome_iff_eq_none.1 hdup

theorem insert_duplicate_checked_first_witness :
    ((scenarioA.InsertBefore "a" "a" 0).1 = some .keyAlreadyExists ∧
      (scenarioA.InsertAfter "a" "a" 0).1 = some .keyAlreadyExists) ∧
    mapGet scenarioA.data "zz" = none := by
  refine ⟨(insert_duplicate_checked_first scenarioA "a" "a" 0).1 (by decide), ?_⟩
  exact (insert_duplicate_checked_first scenarioA "qq" "zz" 0).2.1 (by decide)

/-- C3: with the target present (first occurrence at index `i`) and the new
key absent, `InsertBefore` (resp. `InsertAfter`) succeeds, places the new key
immediately before (resp. after) the target, shifts every key at or after
the insertion point one position later, and stores the value under the new
key; Scenario B yields keys `["a","b","c","d"]`. -/
theorem insert_before_after_spec [Inhabited V] (m : OrderedMap K V) (target key : K)
    (value : V) (i : Nat) (hkey : mapGet m.data key = none)
    (hidx : OrderedMap.indexOf m.order target = some i) :
    ((m.InsertBefore target key value).1 = none ∧
      (m.InsertBefore target key value).2.order =
        m.order.take i ++ key :: m.order.drop i ∧
      (m.InsertBefore target key value).2.order[i]? = some key ∧
      (m.InsertBefore target key value).2.order[i + 1]? = some target ∧
      mapGet (m.InsertBefore target key value).2.data key = some value ∧
      (∀ x, x ≠ key →
        mapGet (m.InsertBefore target key value).2.data x = mapGet m.data x)) ∧
    ((m.InsertAfter target key value).1 = none ∧
      (m.InsertAfter target key value).2.order =
        m.order.take (i + 1) ++ key :: m.order.drop (i + 1) ∧
      (m.InsertAfter target key value).2.order[i]? = some target ∧
      (m.InsertAfter target key value).2.order[i + 1]? = some key ∧
      mapGet (m.InsertAfter target key value).2.data key = some value ∧
      (∀ x, x ≠ key →
        mapGet (m.InsertAfter target key value).2.data x = mapGet m.data x)) ∧
    scenarioB.Keys = ["a", "b", "c", "d"] := by
  have hdup : ¬ (mapGet m.data key).isSome := by simp [hkey]
  have hlt : i < m.order.length := indexOf_lt_length m.order target i hidx
  have htarget : m.order[i]? = some target := indexOf_getElem m.order target i hidx
  have hb : m.InsertBefore target key value =
      (none, { m with data := mapSet m.data key value,
                      order := insertAt m.order i key }) := by
    simp [OrderedMap.InsertBefore, hdup, hidx]
  have ha : m.InsertAfter target key value =
      (none, { m with data := mapSet m.data key value,
                      order := insertAt m.order (i + 1) key }) := by
    simp [OrderedMap.InsertAfter, hdup, hidx]
  refine ⟨⟨?_, ?_, ?_, ?_, ?_, ?_⟩, ⟨?_, ?_, ?_, ?_, ?_, ?_⟩, ?_⟩
  · rw [hb]
  · rw [hb]
    rfl
  · rw [hb]
    exact insertAt_getElem_self m.order i key (Nat.le_of_lt hlt)
  · rw [hb]
    have hs := insertAt_getElem_succ m.order i key
    rw [htarget] at hs
    exact hs
  · rw [hb]
    simp [mapGet_mapSet]
  · intro x hx
    have hkx : ¬ key = x := fun hh => hx hh.symm
    rw [hb]
    simp [mapGet_mapSet, hkx]
  · rw [ha]
  · rw [ha]
    rfl
  · rw [ha]
    have hs := insertAt_getElem_lt m.order (i + 1) i key (Nat.lt_succ_self i) (by omega)
    rw [htarget] at hs
    exact hs
  · rw [ha]
    exact insertAt_getElem_self m.order (i + 1) key (by omega)
  · rw [ha]
    simp [mapGet_mapSet]
  · intro x hx
    have hkx : ¬ key = x := fun hh => hx hh.symm
    rw [ha]
    simp [mapGet_mapSet, hkx]
  · decide

theorem insert_before_after_spec_witness :
    ((((NewOrderedMap (V := Nat) none).Set "a" 1).Set "c" 3).InsertBefore
        "c" "b" 2).2.order = ["a"].take 1 ++ "b" :: ["a", "c"].drop 1 ∧
    scenarioB.Keys = ["a", "b", "c", "d"] := by
  have h := insert_before_after_spec (((NewOrderedMap (V := Nat) none).Set "a" 1).Set "c" 3)
    "c" "b" 2 1 (by decide) (by decide)
  exact ⟨h.1.2.1, h.2.2⟩

/-- C4: deleting a present key removes it from both the hash mapping and the
order sequence, closing the gap (keys after the removed position shift one
slot earlier, relative order kept), and returns the removed value with
found = true; deleting an absent key returns the default value with
found = false and changes nothing; Scenario E. -/
theorem delete_spec [Inhabited V] (m : OrderedMap K V) (key : K) (val : V) (i : Nat) :
    (mapGet m.data key = some val → OrderedMap.indexOf m.order key = some i →
      (m.Delete key).1 = (val, true) ∧
      (m.Delete key).2.order = m.order.take i ++ m.order.drop (i + 1) ∧
      mapGet (m.Delete key).2.data key = none ∧
      (∀ x, x ≠ key → mapGet (m.Delete key).2.data x = mapGet m.data x)) ∧
    (mapGet m.data key = none →
      (m.Delete key).1 = (default, false) ∧ (m.Delete key).2 = m) ∧
    ((scenarioE.Delete "b").2.Keys = ["a", "c"] ∧
      ((scenarioE.Delete "b").2.Delete "a").2.Keys = ["c"]) := by
  refine ⟨?_, ?_, by decide⟩
  · intro h hi
    have hd : m.Delete key =
        ((val, true),
          { m with data := mapDelete m.data key,
                   order := OrderedMap.removeFromOrder m.order key }) := by
      simp [OrderedMap.Delete, h]
    refine ⟨?_, ?_, ?_, ?_⟩
    · rw [hd]
    · rw [hd]
      exact removeFromOrder_eq_take_drop m.order key i hi
    · rw [hd]
      simp [mapGet_mapDelete]
    · intro x hx
      have hkx : ¬ key = x := fun hh => hx hh.symm
      rw [hd]
      simp [mapGet_mapDelete, hkx]
  · intro h
    constructor <;> simp [OrderedMap.Delete, h]

theorem delete_spec_witness :
    (scenarioE.Delete "b").1 = (2, true) ∧
    (scenarioE.Delete "b").2.order = scenarioE.order.take 1 ++ scenarioE.order.drop 2 ∧
    (scenarioE.Delete "zz").2 = scenarioE := by
  have h := delete_spec scenarioE "b" 2 1
  have h2 := delete_spec scenarioE "zz" 0 0
  exact ⟨(h.1 (by decide) (by decide)).1, (h.1 (by decide) (by decide)).2.1,
    (h2.2.1 (by decide)).2⟩

/-- C5: `SortedPairs` with a comparator returns a stably sorted permutation
of the insertion-order snapshot without mutating the stored state: the
output is a permutation of the snapshot, two entries the comparator treats
as equivalent keep their snapshot order, and for a total transitive
comparator the output has no inversion; Scenario C sorts the keys to
`["c","aa","bb"]`. -/
theorem sortedPairs_stable [Inhabited V] (m : OrderedMap K V) (less : K → K → Bool)
    (a b : K × V)
    (htot : ∀ p q : K × V, less q.1 p.1 = false ∨ less p.1 q.1 = false)
    (htrans : ∀ p q r : K × V, less q.1 p.1 = false → less r.1 q.1 = false →
      less r.1 p.1 = false)
    (hab : less a.1 b.1 = false) (hba : less b.1 a.1 = false)
    (hsub : List.Sublist [a, b] m.Pairs) :
    (m.SortedPairs (some less)).1 = .ok (sliceStable less m.Pairs) ∧
    (m.SortedPairs (some less)).2 = m ∧
    List.Perm (sliceStable less m.Pairs) m.Pairs ∧
    List.Sublist [a, b] (sliceStable less m.Pairs) ∧
    List.Pairwise (fun p q => less q.1 p.1 = false) (sliceStable less m.Pairs) ∧
    (scenarioC.SortedPairs none).1 = .ok [("c", 3), ("aa", 1), ("bb", 2)] := by
  refine ⟨rfl, rfl, ?_, ?_, ?_, rfl⟩
  · exact List.perm_insertionSort _ m.Pairs
  · exact List.pair_sublist_insertionSort hba hsub
  · letI : IsTotal (K × V) (fun p q => less q.1 p.1 = false) := ⟨htot⟩
    letI : IsTrans (K × V) (fun p q => less q.1 p.1 = false) :=
      ⟨fun p q r hpq hqr => htrans p q r hpq hqr⟩
    exact List.sorted_insertionSort _ m.Pairs

theorem sortedPairs_stable_witness :
    List.Sublist [("aa", 1), ("bb", 2)] (sliceStable lenLess scenarioC.Pairs) ∧
    (scenarioC.SortedPairs none).1 = .ok [("c", 3), ("aa", 1), ("bb", 2)] := by
  have htot : ∀ p q : String × Nat, lenLess q.1 p.1 = false ∨ lenLess p.1 q.1 = false := by
    intro p q
    simp only [lenLess, decide_eq_false_iff_not]
    omega
  have htrans : ∀ p q r : String × Nat, lenLess q.1 p.1 = false →
      lenLess r.1 q.1 = false → lenLess r.1 p.1 = false := by
    intro p q r h1 h2
    simp only [lenLess, decide_eq_false_iff_not] at h1 h2 ⊢
    omega
  have h := sortedPairs_stable scenarioC lenLess ("aa", 1) ("bb", 2) htot htrans
    (by decide) (by decide) (by decide)
  exact ⟨h.2.2.2.1, h.2.2.2.2.2⟩

/-- C8: whenever a fallible operation (`Upsert`, `SortedPairs`,
`InsertBefore`, `InsertAfter`) returns one of the documented errors
(missing update function, missing comparator, duplicate key, missing
target), the container state is exactly as it was before the call.  Each
operation's failure case is stated independently of the others, so every
error path of every operation is covered on every container state;
`SortedPairs` in fact never mutates the state at all. -/
theorem failed_ops_preserve_state [Inhabited V] (m : OrderedMap K V) (target key : K)
    (newVal value : V) (fn : Option (V → V)) (lessArg : Option (K → K → Bool)) :
    ((m.Upsert key newVal fn).1.2.2.isSome → (m.Upsert key newVal fn).2 = m) ∧
    ((m.InsertBefore target key value).1.isSome →
      (m.InsertBefore target key value).2 = m) ∧
    ((m.InsertAfter target key value).1.isSome →
      (m.InsertAfter target key value).2 = m) ∧
    (m.SortedPairs lessArg).2 = m := by
  refine ⟨?_, ?_, ?_, ?_⟩
  · intro h1
    cases hg : mapGet m.data key with
    | none => simp [OrderedMap.Upsert, hg] at h1
    | some old =>
      cases fn with
      | none => simp [OrderedMap.Upsert, hg]
      | some f => simp [OrderedMap.Upsert, hg] at h1
  · intro h2
    by_cases hdup : (mapGet m.data key).isSome
    · simp [OrderedMap.InsertBefore, hdup]
    · cases hi : OrderedMap.indexOf m.order target with
      | none => simp [OrderedMap.InsertBefore, hdup, hi]
      | some idx => simp [OrderedMap.InsertBefore, hdup, hi] at h2
  · intro h3
    by_cases hdup : (mapGet m.data key).isSome
    · simp [OrderedMap.InsertAfter, hdup]
    · cases hi : OrderedMap.indexOf m.order target with
      | none => simp [OrderedMap.InsertAfter, hdup, hi]
      | some idx => simp [OrderedMap.InsertAfter, hdup, hi] at h3
  · unfold OrderedMap.SortedPairs
    split <;> rfl

theorem failed_ops_preserve_state_witness :
    (scenarioA.Upsert "a" 9 none).2 = scenarioA ∧
    (scenarioA.InsertBefore "a" "a" 0).2 = scenarioA ∧
    (scenarioA.InsertAfter "a" "a" 0).2 = scenarioA ∧
    (scenarioA.InsertBefore "zz" "qq" 0).2 = scenarioA ∧
    (scenarioA.InsertAfter "zz" "qq" 0).2 = scenarioA ∧
    (scenarioA.SortedPairs none).2 = scenarioA ∧
    (scenarioC.Upsert "aa" 9 none).2 = scenarioC := by
  refine ⟨?_, ?_, ?_, ?_, ?_, ?_, ?_⟩
  · exact (failed_ops_preserve_state scenarioA "a" "a" 9 0 none none).1 (by decide)
  · exact (failed_ops_preserve_state scenarioA "a" "a" 9 0 none none).2.1 (by decide)
  · exact (failed_ops_preserve_state scenarioA "a" "a" 9 0 none none).2.2.1 (by decide)
  · exact (failed_ops_preserve_state scenarioA "zz" "qq" 9 0 none none).2.1 (by decide)
  · exact (failed_ops_preserve_state scenarioA "zz" "qq" 9 0 none none).2.2.1 (by decide)
  · exact (failed_ops_preserve_state scenarioA "a" "a" 9 0 none none).2.2.2
  · exact (failed_ops_preserve_state scenarioC "aa" "aa" 9 0 none none).1 (by decide)

end orderedmap
